import Mathlib

/-!
Verification development for the SI-PLCA music structure segmenter
(`segmenter.py`).  The pipeline's array code is shallowly embedded over
`List ℚ` / `List (List ℚ)` (numpy floats become exact rationals; machine
epsilon `np.finfo(float).eps` becomes the exact constant `2 ^ (-52)`).
The external factorization engine `plca.SIPLCA.analyze` / `reconstruct`
is a consumed collaborator, so it enters as an explicit function
parameter; everything else is translated from the source.
-/

namespace Segmenter

/-- `np.finfo(float).eps` as an exact rational (2 ^ -52). -/
def eps : ℚ := 1 / 2 ^ 52

/-- Sum of column `t` of a row-major matrix (`m.sum(0)[t]` in numpy);
out-of-range entries read as 0, matching how callers bound `t`. -/
def colSum (m : List (List ℚ)) (t : ℕ) : ℚ :=
  (m.map (fun row => row.getD t 0)).sum

/-- Number of columns of a row-major matrix (length of its first row). -/
def colCount (m : List (List ℚ)) : ℕ :=
  (m.headD []).length

/-- `m.sum(0)` : the vector of column sums of a row-major matrix. -/
def colSums (m : List (List ℚ)) : List ℚ :=
  (List.range (colCount m)).map (colSum m)

/-- Maximum entry of a list of rationals (`np.max`); 0 on the empty list,
where numpy would raise. -/
def listMaxQ : List ℚ → ℚ
  | [] => 0
  | x :: xs => xs.foldl max x

/-- Maximum entry of a flattened matrix (`array.max()`). -/
def matMaxQ (m : List (List ℚ)) : ℚ :=
  listMaxQ (m.map listMaxQ)

/-- Maximum of a list of naturals (`np.max` on an int array); 0 on `[]`. -/
def listMaxN (l : List ℕ) : ℕ :=
  l.foldr max 0

/-- First index of the minimum of `x :: xs` (`np.argmin` semantics: a
later element replaces the running best only when strictly smaller, so
ties keep the earliest index). -/
def argminIdx (x : ℚ) : List ℚ → ℕ
  | [] => 0
  | y :: ys =>
    if (y :: ys).getD (argminIdx y ys) 0 < x then argminIdx y ys + 1 else 0

/-- `np.argmin`; `none` on the empty list, where numpy raises. -/
def argminQ : List ℚ → Option ℕ
  | [] => none
  | x :: xs => some (argminIdx x xs)

/-- First index of the maximum of `x :: xs` (`np.argmax` semantics: a
later element replaces the running best only when strictly greater, so
ties keep the earliest index). -/
def argmaxIdx (x : ℚ) : List ℚ → ℕ
  | [] => 0
  | y :: ys =>
    if x < (y :: ys).getD (argmaxIdx y ys) 0 then argmaxIdx y ys + 1 else 0

/-- `np.argmax`; `none` on the empty list, where numpy raises. -/
def argmaxQ : List ℚ → Option ℕ
  | [] => none
  | x :: xs => some (argmaxIdx x xs)

/-! ### `remove_short_segments` (segmenter.py lines 355-377)

`segment_borders = np.nonzero(np.diff(labels))[0]` : the ascending list
of indices `i` with `labels[i+1] != labels[i]`.  The in-place slice
assignment `labels[start:end] = label` is modeled by `setSlice`.  In the
source, `labels[start - 1]` with `start = 0` evaluates `labels[-1]`,
which in Python silently reads the LAST element of the array (negative
indices wrap), so the `except IndexError: label = labels[end]` branch is
unreachable; the embedding reproduces the wrap.  Likewise
`segment_borders[idx + 1]` never raises because `idx` comes from
`np.diff(segment_borders)`, hence `idx + 1 < len(segment_borders)`;
the guarded `else` reproduces the dead `end = len(labels)` branch. -/

/-- Indices where the label changes: `np.nonzero(np.diff(labels))[0]`. -/
def segmentBorders (labels : List ℕ) : List ℕ :=
  (List.range (labels.length - 1)).filter
    (fun i => labels.getD (i + 1) 0 ≠ labels.getD i 0)

/-- `np.nonzero(np.diff(segment_borders) < min_segment_length)[0]`. -/
def shortSegmentsIdx (borders : List ℕ) (msl : ℕ) : List ℕ :=
  (List.range (borders.length - 1)).filter
    (fun i => borders.getD (i + 1) 0 - borders.getD i 0 < msl)

/-- Python slice assignment `l[start:stop] = v` (scalar broadcast): the
element at position `i` becomes `v` when `start ≤ i < stop`, the others
are unchanged. -/
def setSlice (l : List ℕ) (start stop v : ℕ) : List ℕ :=
  (List.range l.length).map
    (fun i => if start ≤ i ∧ i < stop then v else l.getD i 0)

/-- One iteration of the merge loop body of `remove_short_segments`. -/
def mergeStep (borders : List ℕ) (labels : List ℕ) (idx : ℕ) : List ℕ :=
  let start := borders.getD idx 0
  let stop :=
    if idx + 1 < borders.length then borders.getD (idx + 1) 0 + 1
    else labels.length
  let label :=
    if start = 0 then labels.getD (labels.length - 1) 0
    else labels.getD (start - 1) 0
  setSlice labels start stop label

/-- `remove_short_segments(labels, min_segment_length)`: the borders are
computed once from the input, then each short span is merged by the loop
(the array is mutated in place in the source; here the fold threads the
updated list). -/
def remove_short_segments (labels : List ℕ) (msl : ℕ) : List ℕ :=
  let borders := segmentBorders labels
  (shortSegmentsIdx borders msl).foldl (mergeStep borders) labels

/-! ### `create_sparse_W_prior` (segmenter.py lines 267-280)

`prior = np.zeros(win); prior[cutoff:] = prior[0] + slope * np.arange(win - cutoff)`
(the read `prior[0]` happens before the slice assignment, on the all-zero
array); then the length-`win` row is broadcast into shape `(F, 1, win)`. -/

def create_sparse_W_prior (F win cutoff : ℕ) (slope : ℚ) :
    List (List (List ℚ)) :=
  let prior0 : List ℚ := List.replicate win 0
  let prior := (List.range win).map (fun j =>
    if cutoff ≤ j then prior0.getD 0 0 + slope * ((j - cutoff : ℕ) : ℚ)
    else prior0.getD j 0)
  List.replicate F [prior]

/-! ### The decomposition driver of `segment_song` (lines 222-246)

The external engine `plca.SIPLCA.analyze` is a consumed collaborator
(spec §6); it enters as a stream `engine : ℕ → Decomp` giving the result
of its `n`-th invocation (each call has identical `rank`/`win`/options
and a fresh random internal state, so successive calls just advance the
stream).  A `Decomp` is the engine's result tuple
`(W, Z, H, norm, recon, divergence)`. -/

structure Decomp where
  W : List (List (List ℚ))
  Z : List ℚ
  H : List (List ℚ)
  norm : ℚ
  recon : List (List ℚ)
  div : ℚ
deriving Inhabited, DecidableEq

/-- `outputs[np.argmin([x[-1] for x in outputs])]` : the attempt with the
minimal final divergence, ties broken in favor of the earliest attempt. -/
def bestDecomp (outputs : List Decomp) : Option Decomp :=
  (argminQ (outputs.map (fun d => d.div))).map (fun i => outputs.getD i default)

/-- The `nrep` engine results of analysis round `r` (the loop
`for n in xrange(nrep): outputs.append(plca.SIPLCA.analyze(...))`;
round `r` consumes stream positions `r*nrep .. r*nrep + nrep - 1`). -/
def batchOutputs (engine : ℕ → Decomp) (nrep r : ℕ) : List Decomp :=
  (List.range nrep).map (fun n => engine (r * nrep + n))

/-- Lines 222-226 (and 240-245): one full analysis round followed by the
minimum-divergence selection. -/
def bestOfBatch (engine : ℕ → Decomp) (nrep r : ℕ) : Option Decomp :=
  bestDecomp (batchOutputs engine nrep r)

/-- The selected decomposition of round `r` (defined when `nrep ≥ 1`). -/
def bestAt (engine : ℕ → Decomp) (nrep r : ℕ) : Decomp :=
  (bestOfBatch engine nrep r).getD default

/-- `np.sum(m.sum(0) <= lowen)` over the `T` frames of the sequence. -/
def nlowenCount (T : ℕ) (m : List (List ℚ)) (lowen : ℚ) : ℕ :=
  ((List.range T).filter (fun t => colSum m t ≤ lowen)).length

/-- Lines 232-233: `if nlowen_seq > maxlowen: maxlowen = nlowen_seq`. -/
def effectiveMaxlowen (maxlowen nlowen_seq : ℕ) : ℕ :=
  if nlowen_seq > maxlowen then nlowen_seq else maxlowen

/-- The quality gate of line 236:
`len(Z) < minsegments or nlowen_recon > maxlowen`. -/
def gateFails (minseg ml T : ℕ) (lowen : ℚ) (d : Decomp) : Bool :=
  decide (d.Z.length < minseg) || decide (nlowenCount T d.recon lowen > ml)

/-- Lines 235-246: while the gate fails and retries remain, discard the
decomposition and redo the whole `nrep`-restart analysis.  `r` is the
next round index of the engine stream, the last argument is `nretries`. -/
def retryLoop (engine : ℕ → Decomp) (nrep minseg ml T : ℕ) (lowen : ℚ) :
    Decomp → ℕ → ℕ → Decomp
  | cur, _, 0 => cur
  | cur, r, fuel + 1 =>
    if gateFails minseg ml T lowen cur then
      match bestOfBatch engine nrep r with
      | none => cur
      | some nxt => retryLoop engine nrep minseg ml T lowen nxt (r + 1) fuel
    else cur

/-- The decomposition part of `segment_song` (lines 222-246): run `nrep`
restarts, keep the minimum-divergence attempt, then retry under the
quality gate with budget `maxretries`.  `none` only when `nrep = 0`,
where `np.argmin` would raise on the empty divergence list. -/
def segment_song_decomp (engine : ℕ → Decomp) (seq : List (List ℚ))
    (nrep minseg maxlowen maxretries : ℕ) : Option Decomp :=
  let lowen : ℚ := (seq.length : ℚ) * eps
  let T := colCount seq
  let nlowen_seq := nlowenCount T seq lowen
  let ml := effectiveMaxlowen maxlowen nlowen_seq
  match bestOfBatch engine nrep 0 with
  | none => none
  | some d0 => some (retryLoop engine nrep minseg ml T lowen d0 1 maxretries)

/-- The quality gate of the driver, evaluated on the selected
decomposition of round `r` (with the raised effective threshold). -/
def driverGateFails (engine : ℕ → Decomp) (seq : List (List ℚ))
    (nrep minseg maxlowen r : ℕ) : Bool :=
  gateFails minseg
    (effectiveMaxlowen maxlowen
      (nlowenCount (colCount seq) seq ((seq.length : ℚ) * eps)))
    (colCount seq) ((seq.length : ℚ) * eps) (bestAt engine nrep r)

/-- Stub engine with deterministic divergences `[5, 2, 9]`, as in the
spec's best-of-N test vector. -/
def stubEngine : ℕ → Decomp := fun n =>
  { W := [], Z := [[5, 2, 9].getD n 0], H := [], norm := 0, recon := [],
    div := [5, 2, 9].getD n 0 }


/-! ### `convert_labels_to_segments` (lines 419-443)

The source emits `'%.4f\t%.4f\t%s'` strings; the embedding keeps the
`(start_time, end_time, symbol)` triple itself (the fixed-decimal string
formatting carries no further information relevant to the segment-list
structure).  `songlen=None` and the Python truthiness test `if songlen:`
are modeled by `Option ℚ` with the zero value falsy. -/

/-- The symbol table `'ABCDEFGHIJKLMNOPQRSTUVWXYZ'` of the source
(shadowing `labels` there). -/
def alphabet : List Char :=
  ['A', 'B', 'C', 'D', 'E', 'F', 'G', 'H', 'I', 'J', 'K', 'L', 'M',
   'N', 'O', 'P', 'Q', 'R', 'S', 'T', 'U', 'V', 'W', 'X', 'Y', 'Z']

/-- `boundaryidx = concatenate(([0], nonzero(diff(labels))[0], [len(labels)-1]))`. -/
def boundaryIdx (labels : List ℕ) : List ℕ :=
  0 :: (segmentBorders labels ++ [labels.length - 1])

/-- `boundarytimes = frametimes[boundaryidx]`. -/
def boundaryTimes (labels : List ℕ) (frametimes : List ℚ) : List ℚ :=
  (boundaryIdx labels).map (fun i => frametimes.getD i 0)

/-- `segstarttimes = boundarytimes[:-1]`. -/
def segStartTimes (labels : List ℕ) (frametimes : List ℚ) : List ℚ :=
  (boundaryTimes labels frametimes).dropLast

/-- `segendtimes = boundarytimes[1:]`. -/
def segEndTimes (labels : List ℕ) (frametimes : List ℚ) : List ℚ :=
  (boundaryTimes labels frametimes).tail

/-- `seglabels = labels[boundaryidx[1:]]`. -/
def segLabels (labels : List ℕ) : List ℕ :=
  (boundaryIdx labels).tail.map (fun i => labels.getD i 0)

/-- The core segment lines
`zip(segstarttimes, segendtimes, seglabels)` with symbolic labels. -/
def coreSegments (labels : List ℕ) (frametimes : List ℚ) :
    List (ℚ × ℚ × Char) :=
  (segStartTimes labels frametimes).zip
    ((segEndTimes labels frametimes).zip
      ((segLabels labels).map (fun l => alphabet.getD l '?')))

/-- `silencelabel = labels[seglabels.max() + 1]` (the alphabet string). -/
def silenceSymbol (labels : List ℕ) : Char :=
  alphabet.getD (listMaxN (segLabels labels) + 1) '?'

/-- `convert_labels_to_segments(labels, frametimes, songlen)` as the list
of `(start, end, symbol)` triples: silence prefixed from time 0 to the
first boundary, and — only under `if songlen:` — silence appended from
the last boundary to `songlen`. -/
def convert_labels_to_segments (labels : List ℕ) (frametimes : List ℚ)
    (songlen : Option ℚ) : List (ℚ × ℚ × Char) :=
  let core := coreSegments labels frametimes
  let sil := silenceSymbol labels
  let withPre := (0, (segStartTimes labels frametimes).headD 0, sil) :: core
  match songlen with
  | none => withPre
  | some sl =>
    if sl ≠ 0 then
      withPre ++ [((segEndTimes labels frametimes).getLastD 0, sl, sil)]
    else withPre

/-! ### The segmentation extractors (lines 282-353)

`plca.SIPLCA.reconstruct` is the external engine's reconstruction; it
enters as the parameter `reconstruct` (per the engine contract, its output
has the shape of `seq`).  `np.log` is the transcendental elementwise
logarithm, which has no exact rational counterpart; it enters as the
opaque parameter `lg` applied elementwise exactly where the source applies
`np.log`. -/

/-- `np.convolve(a, v, 'full')` : entry `k` is `sum_i a[i] * v[k-i]`. -/
def convolveFull (a v : List ℚ) : List ℚ :=
  (List.range (a.length + v.length - 1)).map (fun k =>
    ((List.range (k + 1)).map (fun i => a.getD i 0 * v.getD (k - i) 0)).sum)

/-- `np.convolve(a, v, 'same')` : the centered slice of length
`max(M, N)` of the full convolution, starting at `(min(M, N) - 1) / 2`. -/
def convolveSame (a v : List ℚ) : List ℚ :=
  ((convolveFull a v).drop ((min a.length v.length - 1) / 2)).take
    (max a.length v.length)

/-- `np.transpose(W, (1, 0, 2))` : `(F, rank, win) → (rank, F, win)`. -/
def transpose102 (W : List (List (List ℚ))) : List (List (List ℚ)) :=
  (List.range (W.headD []).length).map
    (fun k => W.map (fun row => row.getD k []))

/-- `np.argmax(m, 0)` : per-column index of the first maximal row. -/
def argmaxAxis0 (m : List (List ℚ)) : List ℕ :=
  (List.range (colCount m)).map (fun t =>
    (argmaxQ (m.map (fun row => row.getD t 0))).getD 0)

/-- `nmf_analysis_to_segmentation` (lines 282-311).  The cross-pattern
correlation matrix `C` of lines 301-303 is computed by the source but
never consulted for the returned labels or segfun, so it is not carried
here; `seq` and `win` are arguments the function never reads outside of
`C`. -/
def nmf_analysis_to_segmentation
    (reconstruct : List (List ℚ) → ℚ → List ℚ → List (List ℚ))
    (seq : List (List ℚ)) (win : ℕ) (W : List (List (List ℚ)))
    (Z : List ℚ) (H : List (List ℚ)) (msl : ℕ) (use_Z : Bool) :
    List ℕ × List (List ℚ) :=
  let Zeff := if use_Z then Z else Z.map (fun _ => 1)
  let triples := (transpose102 W).zip (Zeff.zip H)
  let segfun := triples.map (fun wzh =>
    convolveSame (colSums (reconstruct wzh.1 wzh.2.1 wzh.2.2))
      (List.replicate msl 1))
  let segfunN := segfun.map (fun row => row.map (fun v => v / matMaxQ segfun))
  let labels := argmaxAxis0 segfunN
  (remove_short_segments labels msl, segfunN)

/-- `W[:, z]` : the `F × win` basis slice of pattern `z`. -/
def sliceW (W : List (List (List ℚ))) (z : ℕ) : List (List ℚ) :=
  W.map (fun row => row.getD z [])

/-- `likelihood[z] = plca.SIPLCA.reconstruct(W[:,z], Z[z], H[z]).sum(0)`. -/
def viterbiLikelihood
    (reconstruct : List (List ℚ) → ℚ → List ℚ → List (List ℚ))
    (W : List (List (List ℚ))) (Z : List ℚ) (H : List (List ℚ)) :
    List (List ℚ) :=
  (List.range Z.length).map (fun z =>
    colSums (reconstruct (sliceW W z) (Z.getD z 0) (H.getD z [])))

/-- Transition matrix: `transmat[z,:] = (1-p)/(rank-1+eps)` then
`transmat[z,z] = p`. -/
def viterbiTransmat (rank : ℕ) (p : ℚ) : List (List ℚ) :=
  (List.range rank).map (fun z => (List.range rank).map (fun j =>
    if j = z then p else (1 - p) / ((rank : ℚ) - 1 + eps)))

/-- Column `n` of the Viterbi lattice.  The source zero-initializes the
lattice and assigns `lattice[0] = loglikelihood[0]` — the first ROW — so
column 0 holds `loglikelihood[0][0]` in row 0 and 0 elsewhere; columns
`n ≥ 1` follow the recurrence
`lattice[:,n] = np.max(logtransmat.T + lattice[:,n-1], axis=1) + loglikelihood[:,n]`
with `pr[i,j] = logtransmat[j][i] + lattice[j,n-1]`. -/
def latticeCol (loglik logtrans : List (List ℚ)) (rank : ℕ) : ℕ → List ℚ
  | 0 => (List.range rank).map (fun i =>
      if i = 0 then (loglik.headD []).getD 0 0 else 0)
  | n + 1 =>
    (List.range rank).map (fun i =>
      listMaxQ ((List.range rank).map (fun j =>
        (logtrans.getD j []).getD i 0 +
        (latticeCol loglik logtrans rank n).getD j 0)) +
      (loglik.getD i []).getD (n + 1) 0)

/-- Column `n` of the traceback matrix
(`traceback[:,n] = np.argmax(pr, axis=1)`; column 0 keeps its
`np.zeros` initialization). -/
def tracebackCol (loglik logtrans : List (List ℚ)) (rank : ℕ) : ℕ → List ℕ
  | 0 => List.replicate rank 0
  | n + 1 =>
    (List.range rank).map (fun i =>
      (argmaxQ ((List.range rank).map (fun j =>
        (logtrans.getD j []).getD i 0 +
        (latticeCol loglik logtrans rank n).getD j 0))).getD 0)

/-- The state recorded at backtracking step `k` (i.e. at frame
`T - 1 - k`): step 0 is `lattice[:,-1].argmax()`, and each further step
reads the traceback column of the frame just visited. -/
def stateFromEnd (loglik logtrans : List (List ℚ)) (rank T : ℕ) : ℕ → ℕ
  | 0 => (argmaxQ (latticeCol loglik logtrans rank (T - 1))).getD 0
  | k + 1 =>
    (tracebackCol loglik logtrans rank (T - 1 - k)).getD
      (stateFromEnd loglik logtrans rank T k) 0

/-- `labels = np.array(list(reversed(reverse_state_sequence)))` : the
decoded state for each of the `T` frames. -/
def viterbiPath (loglik logtrans : List (List ℚ)) (rank T : ℕ) : List ℕ :=
  ((List.range T).map (stateFromEnd loglik logtrans rank T)).reverse

/-- `nmf_analysis_to_segmentation_using_viterbi_path` (lines 313-353). -/
def nmf_analysis_to_segmentation_using_viterbi_path
    (reconstruct : List (List ℚ) → ℚ → List ℚ → List (List ℚ))
    (lg : ℚ → ℚ) (seq : List (List ℚ)) (win : ℕ)
    (W : List (List (List ℚ))) (Z : List ℚ) (H : List (List ℚ))
    (selfloopprob : ℚ) (use_Z : Bool) (msl : ℕ) :
    List ℕ × List (List ℚ) :=
  let Zeff := if use_Z then Z else Z.map (fun _ => 1)
  let rank := Zeff.length
  let T := (H.headD []).length
  let likelihood := viterbiLikelihood reconstruct W Zeff H
  let loglik := likelihood.map (fun row => row.map lg)
  let logtrans := (viterbiTransmat rank selfloopprob).map (fun row => row.map lg)
  let labels := viterbiPath loglik logtrans rank T
  (remove_short_segments labels msl, likelihood)

/-! ### Lemmas about the short-segment merger -/

theorem getD_mem_of_lt {α : Type} {l : List α} {i : ℕ} (h : i < l.length)
    (d : α) : l.getD i d ∈ l := by
  rw [List.getD_eq_getElem l d h]
  exact List.getElem_mem h

theorem setSlice_length (l : List ℕ) (s e v : ℕ) :
    (setSlice l s e v).length = l.length := by
  simp [setSlice]

theorem mem_setSlice {l : List ℕ} {s e v x : ℕ} (hx : x ∈ setSlice l s e v) :
    x ∈ l ∨ x = v := by
  rcases List.mem_map.mp hx with ⟨i, hi, hix⟩
  split at hix
  · right; exact hix.symm
  · left
    exact hix ▸ getD_mem_of_lt (List.mem_range.mp hi) 0

theorem segmentBorders_lt {labels : List ℕ} {b : ℕ}
    (hb : b ∈ segmentBorders labels) : b + 1 < labels.length := by
  have h2 := List.mem_range.mp (List.mem_filter.mp hb).1
  omega

theorem shortSegmentsIdx_lt {borders : List ℕ} {msl i : ℕ}
    (hi : i ∈ shortSegmentsIdx borders msl) : i + 1 < borders.length := by
  have h2 := List.mem_range.mp (List.mem_filter.mp hi).1
  omega

theorem mergeStep_length (borders labels : List ℕ) (idx : ℕ) :
    (mergeStep borders labels idx).length = labels.length := by
  simp [mergeStep, setSlice_length]

theorem mergeStep_mem {orig borders labels : List ℕ} {idx x : ℕ}
    (hb : ∀ b ∈ borders, b + 1 < orig.length)
    (hidx : idx < borders.length)
    (hlen : labels.length = orig.length)
    (hx : x ∈ mergeStep borders labels idx) : x ∈ labels := by
  have hstart : borders.getD idx 0 + 1 < orig.length :=
    hb _ (getD_mem_of_lt hidx 0)
  simp only [mergeStep] at hx
  rcases mem_setSlice hx with h | h
  · exact h
  · subst h
    split
    · exact getD_mem_of_lt (by omega) 0
    · exact getD_mem_of_lt (by omega) 0

theorem foldl_mergeStep_invariant {orig borders : List ℕ}
    (hb : ∀ b ∈ borders, b + 1 < orig.length) (idxs : List ℕ)
    (hidxs : ∀ i ∈ idxs, i < borders.length) (labels : List ℕ)
    (hlen : labels.length = orig.length) :
    (idxs.foldl (mergeStep borders) labels).length = orig.length ∧
    (∀ x ∈ idxs.foldl (mergeStep borders) labels, x ∈ labels) := by
  induction idxs generalizing labels with
  | nil => exact ⟨hlen, fun _ hx => hx⟩
  | cons i rest ih =>
    have h1 := ih (fun j hj => hidxs j (List.mem_cons_of_mem _ hj))
      (mergeStep borders labels i) (by rw [mergeStep_length]; exact hlen)
    refine ⟨h1.1, fun x hx => ?_⟩
    exact mergeStep_mem hb (hidxs i (List.mem_cons_self _ _)) hlen (h1.2 x hx)

/-- Combined invariant: the merger preserves the length of the label
array, and every label in the output occurs in the input. -/
theorem remove_short_segments_invariant (labels : List ℕ) (msl : ℕ) :
    (remove_short_segments labels msl).length = labels.length ∧
    ∀ x ∈ remove_short_segments labels msl, x ∈ labels := by
  unfold remove_short_segments
  exact foldl_mergeStep_invariant (fun b hb => segmentBorders_lt hb) _
    (fun i hi => by have := shortSegmentsIdx_lt hi; omega) labels rfl

/-- C10: `remove_short_segments` preserves the length of the label array,
and every label value present after merging was already present before
merging. -/
theorem claim_C10_merge_preserves_length_and_label_values
    (labels : List ℕ) (msl : ℕ) :
    (remove_short_segments labels msl).length = labels.length ∧
    ∀ x ∈ remove_short_segments labels msl, x ∈ labels :=
  remove_short_segments_invariant labels msl

/-- C5: on an already-compliant label sequence (every inter-boundary span
at least `min_segment_length` frames), a further application of
`remove_short_segments` with the same threshold is a no-op. -/
theorem claim_C5_merge_noop_on_compliant (labels : List ℕ) (msl : ℕ)
    (hcompliant : ∀ p ∈ (segmentBorders labels).zip (segmentBorders labels).tail,
      msl ≤ p.2 - p.1) :
    remove_short_segments labels msl = labels := by
  have hres : remove_short_segments labels msl
      = (shortSegmentsIdx (segmentBorders labels) msl).foldl
          (mergeStep (segmentBorders labels)) labels := rfl
  have hnil : shortSegmentsIdx (segmentBorders labels) msl = [] := by
    apply List.filter_eq_nil_iff.mpr
    intro i hi
    have hilt := List.mem_range.mp hi
    have hlen1 : i + 1 < (segmentBorders labels).length := by omega
    have hlen0 : i < (segmentBorders labels).length := by omega
    have hzlen : i < ((segmentBorders labels).zip (segmentBorders labels).tail).length := by
      rw [List.length_zip, List.length_tail]; omega
    have hz : ((segmentBorders labels).getD i 0, (segmentBorders labels).getD (i + 1) 0)
        ∈ (segmentBorders labels).zip (segmentBorders labels).tail := by
      rw [List.mem_iff_getElem]
      refine ⟨i, hzlen, ?_⟩
      rw [List.getElem_zip, List.getElem_tail,
        List.getD_eq_getElem _ _ hlen0, List.getD_eq_getElem _ _ hlen1]
    have hge := hcompliant _ hz
    simp only [decide_eq_true_eq]
    omega
  rw [hres, hnil]
  rfl

/-- C3 (code evaluation at the failing input): a short span at the very
start of the sequence is merged with the label of the LAST frame of the
array (`labels[start - 1]` with `start = 0` is Python's `labels[-1]`,
which wraps around instead of raising the `IndexError` the source tries
to catch), not with the label of the frame immediately after the span. -/
theorem claim_C3_start_span_merges_from_array_end :
    remove_short_segments [0, 1, 1, 2, 2, 2, 3] 3 = [3, 3, 3, 2, 2, 2, 3] ∧
    remove_short_segments [0, 1, 1, 2, 2, 2, 3] 3 ≠ [2, 2, 2, 2, 2, 2, 3] := by
  constructor
  · rfl
  · decide

/-- Witness for C5 at a concrete compliant input. -/
theorem claim_C5_merge_noop_on_compliant_witness :
    remove_short_segments [0, 0, 1, 1] 2 = [0, 0, 1, 1] :=
  claim_C5_merge_noop_on_compliant [0, 0, 1, 1] 2 (by decide)

/-! ### Lemmas about the driver -/

theorem argminIdx_spec (x : ℚ) (xs : List ℚ) :
    argminIdx x xs < (x :: xs).length ∧
    (∀ j < (x :: xs).length,
      (x :: xs).getD (argminIdx x xs) 0 ≤ (x :: xs).getD j 0) ∧
    (∀ j < argminIdx x xs,
      (x :: xs).getD (argminIdx x xs) 0 < (x :: xs).getD j 0) := by
  induction xs generalizing x with
  | nil =>
    refine ⟨by simp [argminIdx], ?_, by simp [argminIdx]⟩
    intro j hj
    simp only [List.length_cons, List.length_nil] at hj
    interval_cases j <;> simp [argminIdx]
  | cons y ys ih =>
    obtain ⟨hlt, hmin, hstrict⟩ := ih y
    rw [argminIdx]
    by_cases hcase : (y :: ys).getD (argminIdx y ys) 0 < x
    · rw [if_pos hcase]
      refine ⟨by simpa using hlt, ?_, ?_⟩
      · intro k hk
        cases k with
        | zero => simpa using le_of_lt hcase
        | succ k' =>
          simp only [List.getD_cons_succ]
          exact hmin k' (by simpa using hk)
      · intro k hk
        cases k with
        | zero => simpa using hcase
        | succ k' =>
          simp only [List.getD_cons_succ]
          exact hstrict k' (by omega)
    · rw [if_neg hcase]
      refine ⟨by simp, ?_, by omega⟩
      intro k hk
      cases k with
      | zero => simp
      | succ k' =>
        simp only [List.getD_cons_zero, List.getD_cons_succ]
        exact le_trans (le_of_not_lt hcase) (hmin k' (by simpa using hk))

theorem argminQ_spec {l : List ℚ} {i : ℕ} (h : argminQ l = some i) :
    i < l.length ∧ (∀ j < l.length, l.getD i 0 ≤ l.getD j 0) ∧
    (∀ j < i, l.getD i 0 < l.getD j 0) := by
  cases l with
  | nil => simp [argminQ] at h
  | cons x xs =>
    rw [argminQ, Option.some.injEq] at h
    subst h
    exact argminIdx_spec x xs

theorem argminQ_isSome {l : List ℚ} (h : l ≠ []) : (argminQ l).isSome := by
  cases l with
  | nil => exact absurd rfl h
  | cons x xs => simp [argminQ]

theorem batchOutputs_length (engine : ℕ → Decomp) (nrep r : ℕ) :
    (batchOutputs engine nrep r).length = nrep := by
  simp [batchOutputs]

theorem batchOutputs_getD (engine : ℕ → Decomp) {nrep : ℕ} (r : ℕ) {i : ℕ}
    (hi : i < nrep) :
    (batchOutputs engine nrep r).getD i default = engine (r * nrep + i) := by
  rw [List.getD_eq_getElem _ _ (by simpa [batchOutputs_length] using hi)]
  simp [batchOutputs]

theorem bestDecomp_spec {outputs : List Decomp} (hne : outputs ≠ []) :
    ∃ i < outputs.length,
      bestDecomp outputs = some (outputs.getD i default) ∧
      (∀ j < outputs.length,
        (outputs.getD i default).div ≤ (outputs.getD j default).div) ∧
      (∀ j < i,
        (outputs.getD i default).div < (outputs.getD j default).div) := by
  have hmapne : outputs.map (fun d => d.div) ≠ [] := by
    simpa using hne
  obtain ⟨i, hi⟩ := Option.isSome_iff_exists.mp (argminQ_isSome hmapne)
  obtain ⟨hlt, hmin, hstrict⟩ := argminQ_spec hi
  rw [List.length_map] at hlt
  have hgd : ∀ j, j < outputs.length →
      (outputs.map (fun d => d.div)).getD j 0 = (outputs.getD j default).div := by
    intro j hj
    rw [List.getD_eq_getElem _ _ (by simpa using hj),
      List.getD_eq_getElem _ _ hj]
    simp
  refine ⟨i, hlt, ?_, ?_, ?_⟩
  · simp [bestDecomp, hi]
  · intro j hj
    have := hmin j (by simpa using hj)
    rwa [hgd i hlt, hgd j hj] at this
  · intro j hj
    have := hstrict j hj
    rwa [hgd i hlt, hgd j (lt_trans hj hlt)] at this

theorem bestOfBatch_eq_some (engine : ℕ → Decomp) {nrep : ℕ} (r : ℕ)
    (hn : 1 ≤ nrep) :
    bestOfBatch engine nrep r = some (bestAt engine nrep r) := by
  have hne : batchOutputs engine nrep r ≠ [] := by
    intro hnil
    have := batchOutputs_length engine nrep r
    rw [hnil] at this
    simp at this
    omega
  obtain ⟨i, _, heq, _, _⟩ := bestDecomp_spec hne
  rw [bestOfBatch, heq, bestAt, bestOfBatch, heq]
  rfl

/-- C1: the driver's selection over the `nrep` independent attempts of a
round picks the attempt with the minimum final divergence, ties broken in
favor of the first-encountered attempt. -/
theorem claim_C1_min_divergence_attempt_selected (engine : ℕ → Decomp)
    (nrep : ℕ) (hn : 1 ≤ nrep) :
    ∃ i < nrep, bestOfBatch engine nrep 0 = some (engine i) ∧
      (∀ j < nrep, (engine i).div ≤ (engine j).div) ∧
      (∀ j < i, (engine i).div < (engine j).div) := by
  have hne : batchOutputs engine nrep 0 ≠ [] := by
    intro hnil
    have := batchOutputs_length engine nrep 0
    rw [hnil] at this
    simp at this
    omega
  obtain ⟨i, hlt, heq, hmin, hstrict⟩ := bestDecomp_spec hne
  rw [batchOutputs_length] at hlt
  refine ⟨i, hlt, ?_, ?_, ?_⟩
  · rw [bestOfBatch, heq, batchOutputs_getD engine 0 hlt]
    simp
  · intro j hj
    have := hmin j (by simpa [batchOutputs_length] using hj)
    rwa [batchOutputs_getD engine 0 hlt, batchOutputs_getD engine 0 hj,
      Nat.zero_mul, Nat.zero_add, Nat.zero_add] at this
  · intro j hj
    have := hstrict j hj
    rwa [batchOutputs_getD engine 0 hlt,
      batchOutputs_getD engine 0 (lt_trans hj hlt),
      Nat.zero_mul, Nat.zero_add, Nat.zero_add] at this

/-- Witness for C1: with divergences `[5, 2, 9]` the second attempt is
selected. -/
theorem claim_C1_min_divergence_attempt_selected_witness :
    (∃ i < 3, bestOfBatch stubEngine 3 0 = some (stubEngine i) ∧
      (∀ j < 3, (stubEngine i).div ≤ (stubEngine j).div) ∧
      (∀ j < i, (stubEngine i).div < (stubEngine j).div)) ∧
    bestOfBatch stubEngine 3 0 = some (stubEngine 1) :=
  ⟨claim_C1_min_divergence_attempt_selected stubEngine 3 (by decide),
    by decide⟩

theorem retryLoop_spec (engine : ℕ → Decomp) (nrep minseg ml T : ℕ)
    (lowen : ℚ) (hn : 1 ≤ nrep) (fuel : ℕ) : ∀ s : ℕ,
    ∃ k ≤ fuel,
      retryLoop engine nrep minseg ml T lowen (bestAt engine nrep s)
          (s + 1) fuel =
        bestAt engine nrep (s + k) ∧
      (∀ m < k, gateFails minseg ml T lowen (bestAt engine nrep (s + m)) = true) ∧
      (k < fuel →
        gateFails minseg ml T lowen (bestAt engine nrep (s + k)) = false) := by
  induction fuel with
  | zero =>
    intro s
    exact ⟨0, Nat.le_refl 0, by simp [retryLoop], by omega, by omega⟩
  | succ fuel ih =>
    intro s
    by_cases hg : gateFails minseg ml T lowen (bestAt engine nrep s) = true
    · obtain ⟨k', hk'le, hres, hall, hstop⟩ := ih (s + 1)
      refine ⟨k' + 1, by omega, ?_, ?_, ?_⟩
      · simp only [retryLoop, if_pos hg, bestOfBatch_eq_some engine (s + 1) hn]
        rw [show s + (k' + 1) = s + 1 + k' by omega]
        exact hres
      · intro m hm
        cases m with
        | zero => exact hg
        | succ m' =>
          rw [show s + (m' + 1) = s + 1 + m' by omega]
          exact hall m' (by omega)
      · intro hlt
        rw [show s + (k' + 1) = s + 1 + k' by omega]
        exact hstop (by omega)
    · refine ⟨0, by omega, ?_, by omega, ?_⟩
      · simp only [retryLoop, if_neg hg, Nat.add_zero]
      · intro _
        simpa using hg

theorem segment_song_decomp_eq (engine : ℕ → Decomp) (seq : List (List ℚ))
    (nrep minseg maxlowen maxretries : ℕ) (hn : 1 ≤ nrep) :
    segment_song_decomp engine seq nrep minseg maxlowen maxretries =
      some (retryLoop engine nrep minseg
        (effectiveMaxlowen maxlowen
          (nlowenCount (colCount seq) seq ((seq.length : ℚ) * eps)))
        (colCount seq) ((seq.length : ℚ) * eps)
        (bestAt engine nrep 0) 1 maxretries) := by
  simp only [segment_song_decomp, bestOfBatch_eq_some engine 0 hn]

/-- C2: for every engine behaviour and every `nrep ≥ 1`, the driver never
fails on the quality gate: it repeats the analysis while the gate fails,
each repeat consuming one of `maxretries`, and once the budget is spent
the last computed decomposition is returned regardless of the gate. -/
theorem claim_C2_quality_gate_retries_then_accepts (engine : ℕ → Decomp)
    (seq : List (List ℚ)) (nrep minseg maxlowen maxretries : ℕ)
    (hn : 1 ≤ nrep) :
    ∃ k ≤ maxretries,
      segment_song_decomp engine seq nrep minseg maxlowen maxretries =
        some (bestAt engine nrep k) ∧
      (∀ m < k, driverGateFails engine seq nrep minseg maxlowen m = true) ∧
      (k < maxretries →
        driverGateFails engine seq nrep minseg maxlowen k = false) := by
  obtain ⟨k, hk, hres, hall, hstop⟩ :=
    retryLoop_spec engine nrep minseg
      (effectiveMaxlowen maxlowen
        (nlowenCount (colCount seq) seq ((seq.length : ℚ) * eps)))
      (colCount seq) ((seq.length : ℚ) * eps) hn maxretries 0
  simp only [Nat.zero_add] at hres hall hstop
  refine ⟨k, hk, ?_, ?_, ?_⟩
  · rw [segment_song_decomp_eq engine seq nrep minseg maxlowen maxretries hn,
      hres]
  · intro m hm
    exact hall m hm
  · intro hlt
    exact hstop hlt

/-- Witness for C2 at a concrete engine and feature sequence. -/
theorem claim_C2_quality_gate_retries_then_accepts_witness :
    ∃ k ≤ 2,
      segment_song_decomp stubEngine [[1]] 1 3 0 2 =
        some (bestAt stubEngine 1 k) ∧
      (∀ m < k, driverGateFails stubEngine [[1]] 1 3 0 m = true) ∧
      (k < 2 → driverGateFails stubEngine [[1]] 1 3 0 k = false) :=
  claim_C2_quality_gate_retries_then_accepts stubEngine [[1]] 1 3 0 2
    (by decide)

/-- C8: the effective low-energy threshold is the configured one raised
to the input's own degenerate-frame count, so for any decomposition whose
reconstruction has no more low-energy frames than the input itself, the
gate reduces to the minimum-segments test alone (no retry merely for
reconstructing frames already degenerate in the input). -/
theorem claim_C8_input_degenerate_frames_raise_threshold
    (maxlowen nlowen_seq minseg T : ℕ) (lowen : ℚ) (d : Decomp)
    (hd : nlowenCount T d.recon lowen ≤ nlowen_seq) :
    effectiveMaxlowen maxlowen nlowen_seq = max maxlowen nlowen_seq ∧
    gateFails minseg (effectiveMaxlowen maxlowen nlowen_seq) T lowen d =
      decide (d.Z.length < minseg) := by
  have hmax : effectiveMaxlowen maxlowen nlowen_seq = max maxlowen nlowen_seq := by
    unfold effectiveMaxlowen
    split <;> omega
  refine ⟨hmax, ?_⟩
  unfold gateFails
  have h2 : decide (nlowenCount T d.recon lowen >
      effectiveMaxlowen maxlowen nlowen_seq) = false := by
    simp only [decide_eq_false_iff_not, gt_iff_lt, not_lt, hmax]
    omega
  rw [h2, Bool.or_false]

/-- Witness for C8 at concrete threshold values. -/
theorem claim_C8_input_degenerate_frames_raise_threshold_witness :
    effectiveMaxlowen 1 2 = max 1 2 ∧
    gateFails 3 (effectiveMaxlowen 1 2) 0 0 (default : Decomp) =
      decide ((default : Decomp).Z.length < 3) :=
  claim_C8_input_degenerate_frames_raise_threshold 1 2 3 0 0 default
    (by decide)

/-! ### The sparsity prior (claim C6) -/

theorem getD_replicate_of_lt {α : Type} {n i : ℕ} (h : i < n) (a d : α) :
    (List.replicate n a).getD i d = a := by
  rw [List.getD_eq_getElem _ _ (by simpa using h)]
  exact List.getElem_replicate _ _

/-- Entry `alphaW[f, 0, j]` of the sparsity prior, for in-range `f`, `j`. -/
theorem create_sparse_W_prior_entry (F win cutoff : ℕ) (slope : ℚ)
    {f j : ℕ} (hf : f < F) (hj : j < win) :
    (((create_sparse_W_prior F win cutoff slope).getD f []).getD 0 []).getD j 0
      = if cutoff ≤ j then slope * ((j - cutoff : ℕ) : ℚ) else 0 := by
  simp only [create_sparse_W_prior]
  rw [getD_replicate_of_lt hf]
  simp only [List.getD_cons_zero]
  have hlen : j < ((List.range win).map (fun j =>
      if cutoff ≤ j then (List.replicate win (0 : ℚ)).getD 0 0 +
        slope * ((j - cutoff : ℕ) : ℚ)
      else (List.replicate win (0 : ℚ)).getD j 0)).length := by
    simpa using hj
  rw [List.getD_eq_getElem _ _ hlen, List.getElem_map, List.getElem_range]
  by_cases hcj : cutoff ≤ j
  · rw [if_pos hcj, if_pos hcj, getD_replicate_of_lt (by omega), zero_add]
  · rw [if_neg hcj, if_neg hcj, getD_replicate_of_lt (by omega)]

/-- C6: the sparsity prior has shape `(F, 1, win)`, is zero at temporal
offsets below `cutoff`, equals `slope * (j - cutoff)` from `cutoff`
onward, and is strictly increasing there when `slope > 0`. -/
theorem claim_C6_sparse_prior_shape_and_slope (F win cutoff : ℕ) (slope : ℚ)
    (hcut : cutoff ≤ win) (hslope : 0 < slope) :
    (create_sparse_W_prior F win cutoff slope).length = F ∧
    (∀ p ∈ create_sparse_W_prior F win cutoff slope,
      p.length = 1 ∧ ∀ q ∈ p, q.length = win) ∧
    (∀ f j, f < F → j < cutoff →
      (((create_sparse_W_prior F win cutoff slope).getD f []).getD 0 []).getD j 0
        = 0) ∧
    (∀ f j, f < F → cutoff ≤ j → j < win →
      (((create_sparse_W_prior F win cutoff slope).getD f []).getD 0 []).getD j 0
        = slope * ((j - cutoff : ℕ) : ℚ)) ∧
    (∀ f j, f < F → cutoff ≤ j → j + 1 < win →
      (((create_sparse_W_prior F win cutoff slope).getD f []).getD 0 []).getD j 0
        < (((create_sparse_W_prior F win cutoff slope).getD f []).getD 0
            []).getD (j + 1) 0) := by
  refine ⟨by simp [create_sparse_W_prior], ?_, ?_, ?_, ?_⟩
  · intro p hp
    have hp' := List.eq_of_mem_replicate hp
    subst hp'
    refine ⟨rfl, ?_⟩
    intro q hq
    rw [List.mem_singleton] at hq
    subst hq
    simp
  · intro f j hf hj
    rw [create_sparse_W_prior_entry F win cutoff slope hf (by omega),
      if_neg (by omega)]
  · intro f j hf hcj hj
    rw [create_sparse_W_prior_entry F win cutoff slope hf hj, if_pos hcj]
  · intro f j hf hcj hj
    rw [create_sparse_W_prior_entry F win cutoff slope hf (by omega),
      if_pos hcj,
      create_sparse_W_prior_entry F win cutoff slope hf (by omega),
      if_pos (by omega)]
    have harith : j + 1 - cutoff = (j - cutoff) + 1 := by omega
    rw [harith]
    push_cast
    have : ((j - cutoff : ℕ) : ℚ) < ((j - cutoff : ℕ) : ℚ) + 1 := by linarith
    exact mul_lt_mul_of_pos_left this hslope

/-- Witness for C6 at a concrete shape. -/
theorem claim_C6_sparse_prior_shape_and_slope_witness :
    (create_sparse_W_prior 1 3 1 1).length = 1 ∧
    (∀ p ∈ create_sparse_W_prior 1 3 1 1,
      p.length = 1 ∧ ∀ q ∈ p, q.length = 3) ∧
    (∀ f j, f < 1 → j < 1 →
      (((create_sparse_W_prior 1 3 1 1).getD f []).getD 0 []).getD j 0 = 0) ∧
    (∀ f j, f < 1 → 1 ≤ j → j < 3 →
      (((create_sparse_W_prior 1 3 1 1).getD f []).getD 0 []).getD j 0
        = 1 * ((j - 1 : ℕ) : ℚ)) ∧
    (∀ f j, f < 1 → 1 ≤ j → j + 1 < 3 →
      (((create_sparse_W_prior 1 3 1 1).getD f []).getD 0 []).getD j 0
        < (((create_sparse_W_prior 1 3 1 1).getD f []).getD 0 []).getD (j + 1) 0) :=
  claim_C6_sparse_prior_shape_and_slope 1 3 1 1 (by decide) (by decide)

/-! ### Lemmas for the label serializer (claims C4 and C9) -/

theorem getD_map_of_lt {α β : Type} (g : α → β) {l : List α} {i : ℕ}
    (h : i < l.length) (d : α) (d' : β) :
    (l.map g).getD i d' = g (l.getD i d) := by
  rw [List.getD_eq_getElem _ _ (by simpa using h),
    List.getD_eq_getElem _ _ h, List.getElem_map]

/-- Adjacent-pairs hypothesis transported to positional form. -/
theorem zip_tail_getD_lt (ft : List ℚ)
    (h : ∀ p ∈ ft.zip ft.tail, p.1 < p.2) :
    ∀ i, i + 1 < ft.length → ft.getD i 0 < ft.getD (i + 1) 0 := by
  intro i hi
  have hzlen : i < (ft.zip ft.tail).length := by
    rw [List.length_zip, List.length_tail]; omega
  have hz : (ft.getD i 0, ft.getD (i + 1) 0) ∈ ft.zip ft.tail := by
    rw [List.mem_iff_getElem]
    refine ⟨i, hzlen, ?_⟩
    rw [List.getElem_zip, List.getElem_tail,
      List.getD_eq_getElem _ _ (by omega), List.getD_eq_getElem _ _ hi]
  exact h _ hz

theorem getD_mono (ts : List ℚ)
    (hchain : ∀ i, i + 1 < ts.length → ts.getD i 0 ≤ ts.getD (i + 1) 0)
    {i j : ℕ} (hij : i ≤ j) (hj : j < ts.length) :
    ts.getD i 0 ≤ ts.getD j 0 := by
  induction j, hij using Nat.le_induction with
  | base => exact le_refl _
  | succ j hij ih => exact le_trans (ih (by omega)) (hchain j hj)

/-- A chain of boundary times covers exactly the interval from its first
to its last element. -/
theorem chain_cover (ts : List ℚ)
    (hchain : ∀ i, i + 1 < ts.length → ts.getD i 0 ≤ ts.getD (i + 1) 0)
    (hlen : 2 ≤ ts.length) (x : ℚ) :
    (∃ i, i + 1 < ts.length ∧ ts.getD i 0 ≤ x ∧ x ≤ ts.getD (i + 1) 0) ↔
    (ts.getD 0 0 ≤ x ∧ x ≤ ts.getD (ts.length - 1) 0) := by
  constructor
  · rintro ⟨i, hi, hix, hxi⟩
    exact ⟨le_trans (getD_mono ts hchain (Nat.zero_le i) (by omega)) hix,
      le_trans hxi (getD_mono ts hchain (by omega) (by omega))⟩
  · rintro ⟨h0, hlast⟩
    have hP0 : ts.getD 0 0 ≤ x := h0
    have hub : Nat.findGreatest (fun i => ts.getD i 0 ≤ x) (ts.length - 2)
        ≤ ts.length - 2 := Nat.findGreatest_le _
    have hPi0 : ts.getD
        (Nat.findGreatest (fun i => ts.getD i 0 ≤ x) (ts.length - 2)) 0 ≤ x :=
      @Nat.findGreatest_spec 0 (fun i => ts.getD i 0 ≤ x) _ (ts.length - 2)
        (Nat.zero_le _) hP0
    refine ⟨Nat.findGreatest (fun i => ts.getD i 0 ≤ x) (ts.length - 2),
      by omega, hPi0, ?_⟩
    by_contra hnot
    push_neg at hnot
    by_cases hcase : Nat.findGreatest (fun i => ts.getD i 0 ≤ x)
        (ts.length - 2) + 1 ≤ ts.length - 2
    · exact @Nat.findGreatest_is_greatest _ (fun i => ts.getD i 0 ≤ x) _
        (ts.length - 2) (by omega) hcase (le_of_lt hnot)
    · have hl : Nat.findGreatest (fun i => ts.getD i 0 ≤ x) (ts.length - 2)
          + 1 = ts.length - 1 := by omega
      rw [hl] at hnot
      exact absurd hlast (not_le.mpr hnot)

theorem segmentBorders_pairwise (labels : List ℕ) :
    List.Pairwise (· < ·) (segmentBorders labels) :=
  (List.pairwise_lt_range _).filter _

theorem boundaryIdx_chain' (labels : List ℕ) :
    List.Chain' (· ≤ ·) (boundaryIdx labels) := by
  rw [boundaryIdx, List.chain'_cons']
  refine ⟨fun y _ => Nat.zero_le y, ?_⟩
  refine List.Chain'.append ?_ (List.chain'_singleton _) ?_
  · exact ((segmentBorders_pairwise labels).chain').imp
      (fun _ _ hab => le_of_lt hab)
  · intro b hb y hy
    simp only [List.head?_cons, Option.mem_def, Option.some.injEq] at hy
    have hblt := segmentBorders_lt (List.mem_of_mem_getLast? hb)
    omega

theorem chain'_getD_le {l : List ℕ} (h : List.Chain' (· ≤ ·) l) :
    ∀ i, i + 1 < l.length → l.getD i 0 ≤ l.getD (i + 1) 0 := by
  intro i hi
  have hg := List.chain'_iff_get.mp h i (by omega)
  simp only [List.get_eq_getElem] at hg
  rwa [List.getD_eq_getElem _ _ (by omega), List.getD_eq_getElem _ _ hi]

theorem boundaryIdx_length (labels : List ℕ) :
    (boundaryIdx labels).length = (segmentBorders labels).length + 2 := by
  simp [boundaryIdx]

theorem boundaryIdx_mem_lt {labels : List ℕ} (h1 : 1 ≤ labels.length) :
    ∀ b ∈ boundaryIdx labels, b < labels.length := by
  intro b hb
  rw [boundaryIdx] at hb
  rcases List.mem_cons.mp hb with h | h
  · omega
  · rcases List.mem_append.mp h with h | h
    · have := segmentBorders_lt h; omega
    · rw [List.mem_singleton] at h; omega

theorem getD_append_singleton {α : Type} (l : List α) (a d : α) :
    (l ++ [a]).getD l.length d = a := by
  induction l with
  | nil => rfl
  | cons x xs ih => simpa using ih

theorem boundaryIdx_last (labels : List ℕ) :
    (boundaryIdx labels).getD ((boundaryIdx labels).length - 1) 0 =
      labels.length - 1 := by
  rw [boundaryIdx_length, boundaryIdx,
    show (segmentBorders labels).length + 2 - 1 =
      (segmentBorders labels).length + 1 from by omega,
    List.getD_cons_succ]
  exact getD_append_singleton _ _ _

theorem boundaryTimes_length (labels : List ℕ) (ft : List ℚ) :
    (boundaryTimes labels ft).length = (segmentBorders labels).length + 2 := by
  simp [boundaryTimes, boundaryIdx]

theorem boundaryTimes_getD (labels : List ℕ) (ft : List ℚ) {i : ℕ}
    (hi : i < (boundaryIdx labels).length) :
    (boundaryTimes labels ft).getD i 0 =
      ft.getD ((boundaryIdx labels).getD i 0) 0 := by
  rw [boundaryTimes, getD_map_of_lt _ hi 0 0]

theorem boundaryTimes_chain (labels : List ℕ) (ft : List ℚ)
    (hftlen : ft.length = labels.length)
    (hmono : ∀ p ∈ ft.zip ft.tail, p.1 < p.2)
    (h1 : 1 ≤ labels.length) :
    ∀ i, i + 1 < (boundaryTimes labels ft).length →
      (boundaryTimes labels ft).getD i 0 ≤
      (boundaryTimes labels ft).getD (i + 1) 0 := by
  intro i hi
  have hleni : (boundaryTimes labels ft).length =
      (boundaryIdx labels).length := by
    rw [boundaryTimes_length, boundaryIdx_length]
  rw [hleni] at hi
  rw [boundaryTimes_getD labels ft (by omega),
    boundaryTimes_getD labels ft (by omega)]
  have hstrict := zip_tail_getD_lt ft hmono
  refine getD_mono ft (fun k hk => le_of_lt (hstrict k hk))
    (chain'_getD_le (boundaryIdx_chain' labels) i hi) ?_
  rw [hftlen]
  exact boundaryIdx_mem_lt h1 _ (getD_mem_of_lt (by omega) 0)

theorem coreSegments_length (labels : List ℕ) (ft : List ℚ) :
    (coreSegments labels ft).length = (segmentBorders labels).length + 1 := by
  simp only [coreSegments, List.length_zip, List.length_map, segStartTimes,
    segEndTimes, List.length_dropLast, List.length_tail, segLabels,
    boundaryTimes_length, boundaryIdx_length]
  omega

theorem coreSegments_getD (labels : List ℕ) (ft : List ℚ) {i : ℕ}
    (hi : i < (coreSegments labels ft).length) :
    ((coreSegments labels ft).getD i (0, 0, 'A')).1 =
      (boundaryTimes labels ft).getD i 0 ∧
    ((coreSegments labels ft).getD i (0, 0, 'A')).2.1 =
      (boundaryTimes labels ft).getD (i + 1) 0 := by
  have hbt := boundaryTimes_length labels ft
  have hcl := coreSegments_length labels ft
  constructor
  · rw [List.getD_eq_getElem _ _ hi]
    simp only [coreSegments, segStartTimes, segEndTimes, List.getElem_zip]
    rw [List.getElem_dropLast, List.getD_eq_getElem _ _ (by omega)]
  · rw [List.getD_eq_getElem _ _ hi]
    simp only [coreSegments, segStartTimes, segEndTimes, List.getElem_zip]
    rw [List.getElem_tail, List.getD_eq_getElem _ _ (by omega)]

theorem boundaryTimes_first (labels : List ℕ) (ft : List ℚ) :
    (boundaryTimes labels ft).getD 0 0 = ft.getD 0 0 := by
  rw [boundaryTimes_getD labels ft (by rw [boundaryIdx_length]; omega)]
  simp [boundaryIdx]

theorem boundaryTimes_last (labels : List ℕ) (ft : List ℚ)
    (hftlen : ft.length = labels.length) :
    (boundaryTimes labels ft).getD ((boundaryTimes labels ft).length - 1) 0
      = ft.getD (ft.length - 1) 0 := by
  have hlast := boundaryIdx_last labels
  rw [boundaryTimes_length,
    show (segmentBorders labels).length + 2 - 1 =
      (segmentBorders labels).length + 1 from by omega,
    boundaryTimes_getD labels ft (by rw [boundaryIdx_length]; omega)]
  rw [boundaryIdx_length] at hlast
  rw [show (segmentBorders labels).length + 1 =
      (segmentBorders labels).length + 2 - 1 from by omega, hlast, hftlen]

/-- C4: over the synthetic-silence-free core of the emitted segment list,
consecutive spans are contiguous (each end time is the next start time),
spans never overlap (ends precede later starts), and their union covers
exactly `[frametimes[0], frametimes[-1]]`. -/
theorem claim_C4_segment_list_contiguous_cover (labels : List ℕ)
    (ft : List ℚ) (hlen2 : 2 ≤ labels.length)
    (hftlen : ft.length = labels.length)
    (hmono : ∀ p ∈ ft.zip ft.tail, p.1 < p.2) :
    (∀ i, i + 1 < (coreSegments labels ft).length →
      ((coreSegments labels ft).getD i (0, 0, 'A')).2.1 =
      ((coreSegments labels ft).getD (i + 1) (0, 0, 'A')).1) ∧
    (∀ i j, i < j → j < (coreSegments labels ft).length →
      ((coreSegments labels ft).getD i (0, 0, 'A')).2.1 ≤
      ((coreSegments labels ft).getD j (0, 0, 'A')).1) ∧
    (∀ x : ℚ,
      (∃ i < (coreSegments labels ft).length,
        ((coreSegments labels ft).getD i (0, 0, 'A')).1 ≤ x ∧
        x ≤ ((coreSegments labels ft).getD i (0, 0, 'A')).2.1) ↔
      (ft.getD 0 0 ≤ x ∧ x ≤ ft.getD (ft.length - 1) 0)) := by
  have hchain := boundaryTimes_chain labels ft hftlen hmono (by omega)
  have hbtlen := boundaryTimes_length labels ft
  have hcl := coreSegments_length labels ft
  have hbt0 := boundaryTimes_first labels ft
  have hbtlast := boundaryTimes_last labels ft hftlen
  refine ⟨?_, ?_, ?_⟩
  · intro i hi
    obtain ⟨_, h2⟩ := coreSegments_getD labels ft
      (show i < (coreSegments labels ft).length by omega)
    obtain ⟨h1, _⟩ := coreSegments_getD labels ft hi
    rw [h2, h1]
  · intro i j hij hj
    obtain ⟨_, h2⟩ := coreSegments_getD labels ft (lt_trans hij hj)
    obtain ⟨h1, _⟩ := coreSegments_getD labels ft hj
    rw [h2, h1]
    exact getD_mono _ hchain (by omega) (by omega)
  · intro x
    have hcover := chain_cover (boundaryTimes labels ft) hchain (by omega) x
    constructor
    · rintro ⟨i, hi, hix, hxi⟩
      obtain ⟨h1, h2⟩ := coreSegments_getD labels ft hi
      rw [h1] at hix
      rw [h2] at hxi
      have hres := hcover.mp ⟨i, by omega, hix, hxi⟩
      rw [hbt0, hbtlen,
        show (segmentBorders labels).length + 2 - 1 =
          (segmentBorders labels).length + 1 from by omega] at hres
      rw [hbtlen,
        show (segmentBorders labels).length + 2 - 1 =
          (segmentBorders labels).length + 1 from by omega] at hbtlast
      rwa [hbtlast] at hres
    · rintro ⟨hx0, hxl⟩
      rw [hbtlen,
        show (segmentBorders labels).length + 2 - 1 =
          (segmentBorders labels).length + 1 from by omega] at hbtlast
      obtain ⟨i, hi, hix, hxi⟩ := hcover.mpr (by
        rw [hbt0, hbtlen,
          show (segmentBorders labels).length + 2 - 1 =
            (segmentBorders labels).length + 1 from by omega, hbtlast]
        exact ⟨hx0, hxl⟩)
      have hicore : i < (coreSegments labels ft).length := by omega
      obtain ⟨h1, h2⟩ := coreSegments_getD labels ft hicore
      exact ⟨i, hicore, by rwa [h1], by rwa [h2]⟩

/-- Witness for C4 at a concrete label sequence and frame-time array. -/
theorem claim_C4_segment_list_contiguous_cover_witness :
    (∀ i, i + 1 < (coreSegments [0, 1] [0, 1]).length →
      ((coreSegments [0, 1] [0, 1]).getD i (0, 0, 'A')).2.1 =
      ((coreSegments [0, 1] [0, 1]).getD (i + 1) (0, 0, 'A')).1) ∧
    (∀ i j, i < j → j < (coreSegments [0, 1] [0, 1]).length →
      ((coreSegments [0, 1] [0, 1]).getD i (0, 0, 'A')).2.1 ≤
      ((coreSegments [0, 1] [0, 1]).getD j (0, 0, 'A')).1) ∧
    (∀ x : ℚ,
      (∃ i < (coreSegments [0, 1] [0, 1]).length,
        ((coreSegments [0, 1] [0, 1]).getD i (0, 0, 'A')).1 ≤ x ∧
        x ≤ ((coreSegments [0, 1] [0, 1]).getD i (0, 0, 'A')).2.1) ↔
      (([0, 1] : List ℚ).getD 0 0 ≤ x ∧
        x ≤ ([0, 1] : List ℚ).getD (([0, 1] : List ℚ).length - 1) 0)) :=
  claim_C4_segment_list_contiguous_cover [0, 1] [0, 1] (by decide) (by decide)
    (by decide)

theorem le_listMaxN {l : List ℕ} {y : ℕ} (hy : y ∈ l) : y ≤ listMaxN l := by
  induction l with
  | nil => cases hy
  | cons x xs ih =>
    rw [listMaxN, List.foldr_cons]
    rcases List.mem_cons.mp hy with h | h
    · subst h; exact le_max_left _ _
    · exact le_trans (ih h) (le_max_right _ _)

theorem listMaxN_le {l : List ℕ} {b : ℕ} (h : ∀ y ∈ l, y ≤ b) :
    listMaxN l ≤ b := by
  induction l with
  | nil => exact Nat.zero_le b
  | cons x xs ih =>
    rw [listMaxN, List.foldr_cons]
    exact max_le (h x (by simp))
      (ih fun y hy => h y (List.mem_cons_of_mem _ hy))

/-- Every run of equal labels ends at a segment border or at the final
frame, so the label at every frame also occurs at some boundary index. -/
theorem run_end_exists (labels : List ℕ) :
    ∀ k i, labels.length - 1 - i ≤ k → i < labels.length →
      ∃ j, i ≤ j ∧ j < labels.length ∧
        (j ∈ segmentBorders labels ∨ j = labels.length - 1) ∧
        labels.getD j 0 = labels.getD i 0 := by
  intro k
  induction k with
  | zero =>
    intro i hk hi
    exact ⟨i, le_refl i, hi, Or.inr (by omega), rfl⟩
  | succ k ih =>
    intro i hk hi
    by_cases hlast : i = labels.length - 1
    · exact ⟨i, le_refl i, hi, Or.inr hlast, rfl⟩
    · by_cases hne : labels.getD (i + 1) 0 ≠ labels.getD i 0
      · refine ⟨i, le_refl i, hi, Or.inl ?_, rfl⟩
        rw [segmentBorders, List.mem_filter]
        exact ⟨List.mem_range.mpr (by omega), by simpa using hne⟩
      · push_neg at hne
        obtain ⟨j, hij, hjlen, hj, hlab⟩ := ih (i + 1) (by omega) (by omega)
        exact ⟨j, by omega, hjlen, hj, by rw [hlab, hne]⟩

theorem segLabels_subset {labels : List ℕ} (h1 : 1 ≤ labels.length) :
    ∀ y ∈ segLabels labels, y ∈ labels := by
  intro y hy
  rw [segLabels] at hy
  obtain ⟨j, hj, rfl⟩ := List.mem_map.mp hy
  exact getD_mem_of_lt
    (boundaryIdx_mem_lt h1 j (List.mem_of_mem_tail hj)) 0

theorem exists_segLabel_eq {labels : List ℕ} {i : ℕ} (hi : i < labels.length) :
    labels.getD i 0 ∈ segLabels labels := by
  obtain ⟨j, hij, hjlen, hj, hlab⟩ :=
    run_end_exists labels (labels.length - 1 - i) i (le_refl _) hi
  rw [← hlab, segLabels]
  apply List.mem_map.mpr
  refine ⟨j, ?_, rfl⟩
  rw [boundaryIdx]
  simp only [List.tail_cons]
  rcases hj with h | h
  · exact List.mem_append.mpr (Or.inl h)
  · exact List.mem_append.mpr (Or.inr (by simp [h]))

/-- `seglabels.max()` equals the highest label used anywhere in the
sequence (every run is sampled at its final frame). -/
theorem segLabels_max_eq {labels : List ℕ} (h1 : 1 ≤ labels.length) :
    listMaxN (segLabels labels) = listMaxN labels := by
  apply le_antisymm
  · exact listMaxN_le (fun y hy => le_listMaxN (segLabels_subset h1 y hy))
  · apply listMaxN_le
    intro y hy
    obtain ⟨i, hi, hy'⟩ := List.mem_iff_getElem.mp hy
    have hmem := @exists_segLabel_eq labels i hi
    rw [List.getD_eq_getElem _ _ hi, hy'] at hmem
    exact le_listMaxN hmem

theorem headD_eq_getD {α : Type} (l : List α) (d : α) :
    l.headD d = l.getD 0 d := by
  cases l <;> rfl

theorem getLastD_eq_getD {α : Type} {l : List α} (h : l ≠ []) (d : α) :
    l.getLastD d = l.getD (l.length - 1) d := by
  induction l generalizing d with
  | nil => exact absurd rfl h
  | cons x t ih =>
    cases t with
    | nil => rfl
    | cons y t' =>
      rw [List.getLastD_cons, ih (by simp) x, List.length_cons,
        List.getD_eq_getElem _ _ (by simp),
        show (x :: y :: t').length - 1 = ((y :: t').length - 1) + 1 from by
          simp,
        List.getD_cons_succ, List.getD_eq_getElem _ _ (by simp)]
      simp

theorem boundaryTimes_last_labels (labels : List ℕ) (ft : List ℚ) :
    (boundaryTimes labels ft).getD ((boundaryTimes labels ft).length - 1) 0
      = ft.getD (labels.length - 1) 0 := by
  have hlast := boundaryIdx_last labels
  rw [boundaryTimes_length,
    show (segmentBorders labels).length + 2 - 1 =
      (segmentBorders labels).length + 1 from by omega,
    boundaryTimes_getD labels ft (by rw [boundaryIdx_length]; omega)]
  rw [boundaryIdx_length] at hlast
  rw [show (segmentBorders labels).length + 1 =
      (segmentBorders labels).length + 2 - 1 from by omega, hlast]

theorem segStartTimes_headD (labels : List ℕ) (ft : List ℚ) :
    (segStartTimes labels ft).headD 0 = ft.getD 0 0 := by
  have hlen : 0 < (segStartTimes labels ft).length := by
    simp only [segStartTimes, List.length_dropLast, boundaryTimes_length]
    omega
  rw [headD_eq_getD, List.getD_eq_getElem _ _ hlen]
  simp only [segStartTimes]
  rw [List.getElem_dropLast, ← boundaryTimes_first labels ft,
    List.getD_eq_getElem _ _ (by rw [boundaryTimes_length]; omega)]

theorem segEndTimes_getLastD (labels : List ℕ) (ft : List ℚ) :
    (segEndTimes labels ft).getLastD 0 = ft.getD (labels.length - 1) 0 := by
  have hlen : (segEndTimes labels ft).length =
      (segmentBorders labels).length + 1 := by
    simp only [segEndTimes, List.length_tail, boundaryTimes_length]
    omega
  have hne : segEndTimes labels ft ≠ [] :=
    List.ne_nil_of_length_pos (by omega)
  rw [getLastD_eq_getD hne, hlen,
    show (segmentBorders labels).length + 1 - 1 =
      (segmentBorders labels).length from by omega,
    List.getD_eq_getElem _ _ (by omega)]
  simp only [segEndTimes]
  rw [List.getElem_tail,
    ← List.getD_eq_getElem (boundaryTimes labels ft) 0
      (show (segmentBorders labels).length + 1 <
        (boundaryTimes labels ft).length by rw [boundaryTimes_length]; omega),
    show (segmentBorders labels).length + 1 =
      (boundaryTimes labels ft).length - 1 from by
        rw [boundaryTimes_length]; omega,
    boundaryTimes_last_labels labels ft]

/-- C9 (amended): a silence line `[0, first_segment_start)` carrying the
alphabetic code one past the highest used label is always prefixed, and
the trailing silence line `[last_segment_end, songlen]` is appended
exactly when the supplied song length is truthy (nonzero); a supplied
song length of 0 behaves like no song length at all. -/
theorem claim_C9_silence_prefix_and_truthy_suffix (labels : List ℕ)
    (ft : List ℚ) (songlen : Option ℚ) (h1 : 1 ≤ labels.length) :
    ((convert_labels_to_segments labels ft songlen).headD (0, 0, 'A') =
      (0, ft.getD 0 0, alphabet.getD (listMaxN labels + 1) '?')) ∧
    (∀ sl, songlen = some sl → sl ≠ 0 →
      (convert_labels_to_segments labels ft songlen).length =
        (coreSegments labels ft).length + 2 ∧
      (convert_labels_to_segments labels ft songlen).getLastD (0, 0, 'A') =
        (ft.getD (labels.length - 1) 0, sl,
          alphabet.getD (listMaxN labels + 1) '?')) ∧
    (songlen = none ∨ songlen = some 0 →
      convert_labels_to_segments labels ft songlen =
        (0, ft.getD 0 0, alphabet.getD (listMaxN labels + 1) '?')
          :: coreSegments labels ft) := by
  have hsil : silenceSymbol labels =
      alphabet.getD (listMaxN labels + 1) '?' := by
    rw [silenceSymbol, segLabels_max_eq h1]
  have hstart := segStartTimes_headD labels ft
  have hend := segEndTimes_getLastD labels ft
  have hconv : ∀ sl : ℚ, convert_labels_to_segments labels ft (some sl) =
      if sl ≠ 0 then
        ((0, (segStartTimes labels ft).headD 0, silenceSymbol labels)
          :: coreSegments labels ft) ++
          [((segEndTimes labels ft).getLastD 0, sl, silenceSymbol labels)]
      else
        (0, (segStartTimes labels ft).headD 0, silenceSymbol labels)
          :: coreSegments labels ft := fun _ => rfl
  have hconvn : convert_labels_to_segments labels ft none =
      (0, (segStartTimes labels ft).headD 0, silenceSymbol labels)
        :: coreSegments labels ft := rfl
  refine ⟨?_, ?_, ?_⟩
  · cases songlen with
    | none => rw [hconvn, List.headD_cons, hstart, hsil]
    | some sl =>
      rw [hconv sl]
      by_cases hz : sl ≠ 0
      · rw [if_pos hz, List.cons_append, List.headD_cons, hstart, hsil]
      · rw [if_neg hz, List.headD_cons, hstart, hsil]
  · rintro sl rfl hsl
    rw [hconv sl, if_pos hsl]
    constructor
    · rw [List.length_append, List.length_cons, List.length_cons,
        List.length_nil]
    · rw [List.getLastD_concat, hend, hsil]
  · rintro (rfl | rfl)
    · rw [hconvn, hstart, hsil]
    · rw [hconv 0, if_neg (by simp), hstart, hsil]

/-- C9 counterexample: a supplied-but-zero song length appends no trailing
silence line — the output coincides with the no-song-length output, so the
trailing line is not appended "exactly when a song length is supplied". -/
theorem claim_C9_zero_songlen_counterexample :
    convert_labels_to_segments [0] [1] (some 0) =
      convert_labels_to_segments [0] [1] none ∧
    (convert_labels_to_segments [0] [1] (some 0)).length = 2 := by
  exact ⟨rfl, rfl⟩

/-- Witness for C9 at a concrete input with a truthy song length. -/
theorem claim_C9_silence_prefix_and_truthy_suffix_witness :
    ((convert_labels_to_segments [0, 1] [0, 1] (some 2)).headD (0, 0, 'A') =
      (0, ([0, 1] : List ℚ).getD 0 0,
        alphabet.getD (listMaxN [0, 1] + 1) '?')) ∧
    (∀ sl, (some (2 : ℚ)) = some sl → sl ≠ 0 →
      (convert_labels_to_segments [0, 1] [0, 1] (some 2)).length =
        (coreSegments [0, 1] [0, 1]).length + 2 ∧
      (convert_labels_to_segments [0, 1] [0, 1] (some 2)).getLastD
          (0, 0, 'A') =
        (([0, 1] : List ℚ).getD (([0, 1] : List ℕ).length - 1) 0, sl,
          alphabet.getD (listMaxN [0, 1] + 1) '?')) ∧
    ((some (2 : ℚ)) = none ∨ (some (2 : ℚ)) = some 0 →
      convert_labels_to_segments [0, 1] [0, 1] (some 2) =
        (0, ([0, 1] : List ℚ).getD 0 0,
          alphabet.getD (listMaxN [0, 1] + 1) '?')
          :: coreSegments [0, 1] [0, 1]) :=
  claim_C9_silence_prefix_and_truthy_suffix [0, 1] [0, 1] (some 2) (by decide)

/-! ### Lemmas for the segmentation extractors (claim C7) -/

theorem colSums_length (m : List (List ℚ)) :
    (colSums m).length = colCount m := by
  simp [colSums]

theorem headD_mem {α : Type} {l : List α} (h : l ≠ []) (d : α) :
    l.headD d ∈ l := by
  cases l with
  | nil => exact absurd rfl h
  | cons x xs => simp

theorem convolveFull_length (a v : List ℚ) :
    (convolveFull a v).length = a.length + v.length - 1 := by
  simp [convolveFull]

theorem convolveSame_length {a v : List ℚ} (ha : 1 ≤ a.length)
    (hv : 1 ≤ v.length) :
    (convolveSame a v).length = max a.length v.length := by
  rw [convolveSame, List.length_take, List.length_drop, convolveFull_length]
  have hd : (min a.length v.length - 1) / 2 ≤ min a.length v.length - 1 :=
    Nat.div_le_self _ _
  omega

theorem argmaxIdx_lt (x : ℚ) (xs : List ℚ) :
    argmaxIdx x xs < xs.length + 1 := by
  induction xs generalizing x with
  | nil => simp [argmaxIdx]
  | cons y ys ih =>
    rw [argmaxIdx]
    split
    · have := ih y
      simp only [List.length_cons]
      omega
    · simp

theorem argmaxQ_getD_lt {l : List ℚ} (h : l ≠ []) :
    (argmaxQ l).getD 0 < l.length := by
  cases l with
  | nil => exact absurd rfl h
  | cons x xs =>
    rw [argmaxQ]
    simpa using argmaxIdx_lt x xs

theorem argmaxAxis0_length (m : List (List ℚ)) :
    (argmaxAxis0 m).length = colCount m := by
  simp [argmaxAxis0]

theorem argmaxAxis0_mem_lt {m : List (List ℚ)} (hm : m ≠ []) :
    ∀ x ∈ argmaxAxis0 m, x < m.length := by
  intro x hx
  rw [argmaxAxis0] at hx
  obtain ⟨t, _, rfl⟩ := List.mem_map.mp hx
  have hne : m.map (fun row => row.getD t 0) ≠ [] := by
    simpa using hm
  have := argmaxQ_getD_lt hne
  simpa using this

theorem latticeCol_length (loglik logtrans : List (List ℚ)) (rank n : ℕ) :
    (latticeCol loglik logtrans rank n).length = rank := by
  cases n <;> simp [latticeCol]

theorem tracebackCol_length (loglik logtrans : List (List ℚ)) (rank n : ℕ) :
    (tracebackCol loglik logtrans rank n).length = rank := by
  cases n <;> simp [tracebackCol]

theorem tracebackCol_mem_lt {loglik logtrans : List (List ℚ)} {rank : ℕ}
    (hr : 1 ≤ rank) (n : ℕ) :
    ∀ x ∈ tracebackCol loglik logtrans rank n, x < rank := by
  intro x hx
  cases n with
  | zero =>
    rw [tracebackCol] at hx
    rw [List.eq_of_mem_replicate hx]
    omega
  | succ n =>
    rw [tracebackCol] at hx
    obtain ⟨i, _, rfl⟩ := List.mem_map.mp hx
    have hne : ((List.range rank).map (fun j =>
        (logtrans.getD j []).getD i 0 +
        (latticeCol loglik logtrans rank n).getD j 0)) ≠ [] := by
      simp only [ne_eq, List.map_eq_nil_iff, List.range_eq_nil]
      omega
    have := argmaxQ_getD_lt hne
    simpa using this

theorem stateFromEnd_lt {loglik logtrans : List (List ℚ)} {rank : ℕ}
    (hr : 1 ≤ rank) (T : ℕ) :
    ∀ k, stateFromEnd loglik logtrans rank T k < rank := by
  intro k
  induction k with
  | zero =>
    rw [stateFromEnd]
    have hne : latticeCol loglik logtrans rank (T - 1) ≠ [] :=
      List.ne_nil_of_length_pos (by rw [latticeCol_length]; omega)
    have := argmaxQ_getD_lt hne
    rwa [latticeCol_length] at this
  | succ k ih =>
    rw [stateFromEnd]
    apply tracebackCol_mem_lt hr
    apply getD_mem_of_lt
    rw [tracebackCol_length]
    exact ih

theorem viterbiPath_length (loglik logtrans : List (List ℚ)) (rank T : ℕ) :
    (viterbiPath loglik logtrans rank T).length = T := by
  simp [viterbiPath]

theorem viterbiPath_mem_lt {loglik logtrans : List (List ℚ)} {rank : ℕ}
    (hr : 1 ≤ rank) (T : ℕ) :
    ∀ x ∈ viterbiPath loglik logtrans rank T, x < rank := by
  intro x hx
  rw [viterbiPath, List.mem_reverse] at hx
  obtain ⟨k, _, rfl⟩ := List.mem_map.mp hx
  exact stateFromEnd_lt hr T k

/-- C7 (amended): under the engine contract (`reconstruct` output has `T`
columns, like the input), consistent decomposition dimensions, and
`1 ≤ min_segment_length ≤ T`, both extractors return a label array of
length exactly `T` whose every entry lies in `[0, len(Z))`.  The
`min_segment_length ≤ T` hypothesis is forced by the correlation
variant's smoothing: `np.convolve(..., 'same')` pads the score curves to
length `max(T, min_segment_length)` (see the counterexample). -/
theorem claim_C7_label_arrays_length_and_range
    (reconstruct : List (List ℚ) → ℚ → List ℚ → List (List ℚ))
    (lg : ℚ → ℚ) (seq : List (List ℚ)) (win : ℕ)
    (W : List (List (List ℚ))) (Z : List ℚ) (H : List (List ℚ))
    (selfloopprob : ℚ) (use_Z : Bool) (msl T : ℕ)
    (hrank : 1 ≤ Z.length)
    (hseqT : colCount seq = T)
    (hrecT : ∀ w z h, colCount (reconstruct w z h) = T)
    (hW : (W.headD []).length = Z.length)
    (hH : H.length = Z.length)
    (hHT : colCount H = T)
    (hmsl : 1 ≤ msl) (hmslT : msl ≤ T) :
    ((nmf_analysis_to_segmentation reconstruct seq win W Z H msl
        use_Z).1.length = T ∧
      ∀ x ∈ (nmf_analysis_to_segmentation reconstruct seq win W Z H msl
        use_Z).1, x < Z.length) ∧
    ((nmf_analysis_to_segmentation_using_viterbi_path reconstruct lg seq win
        W Z H selfloopprob use_Z msl).1.length = T ∧
      ∀ x ∈ (nmf_analysis_to_segmentation_using_viterbi_path reconstruct lg
        seq win W Z H selfloopprob use_Z msl).1, x < Z.length) := by
  have hZeff : (if use_Z then Z else Z.map (fun _ => (1 : ℚ))).length =
      Z.length := by
    cases use_Z <;> simp
  constructor
  · -- correlation/threshold variant
    set Zeff := if use_Z then Z else Z.map (fun _ => (1 : ℚ)) with hZeffdef
    set segfun := ((transpose102 W).zip (Zeff.zip H)).map
        (fun wzh => convolveSame
          (colSums (reconstruct wzh.1 wzh.2.1 wzh.2.2))
          (List.replicate msl 1)) with hsegfundef
    set segfunN := segfun.map
        (fun row => row.map (fun v => v / matMaxQ segfun)) with hsegfunNdef
    have heqA : (nmf_analysis_to_segmentation reconstruct seq win W Z H msl
        use_Z).1 = remove_short_segments (argmaxAxis0 segfunN) msl := rfl
    have htrans : (transpose102 W).length = Z.length := by
      rw [transpose102, List.length_map, List.length_range, hW]
    have hsegfunlen : segfun.length = Z.length := by
      rw [hsegfundef, List.length_map, List.length_zip, List.length_zip,
        htrans, hZeff, hH]
      omega
    have hNlen : segfunN.length = Z.length := by
      rw [hsegfunNdef, List.length_map, hsegfunlen]
    have hrows : ∀ row ∈ segfun, row.length = T := by
      intro row hrow
      rw [hsegfundef] at hrow
      obtain ⟨wzh, _, rfl⟩ := List.mem_map.mp hrow
      have h1 : (colSums (reconstruct wzh.1 wzh.2.1 wzh.2.2)).length = T := by
        rw [colSums_length, hrecT]
      have h2 : (List.replicate msl (1 : ℚ)).length = msl := by simp
      rw [convolveSame_length (by rw [h1]; omega) (by rw [h2]; omega),
        h1, h2]
      exact max_eq_left hmslT
    have hNrows : ∀ row ∈ segfunN, row.length = T := by
      intro row hrow
      rw [hsegfunNdef] at hrow
      obtain ⟨r, hr, rfl⟩ := List.mem_map.mp hrow
      rw [List.length_map]
      exact hrows r hr
    have hNne : segfunN ≠ [] :=
      List.ne_nil_of_length_pos (by rw [hNlen]; omega)
    have hcolN : colCount segfunN = T := by
      rw [colCount]
      exact hNrows _ (headD_mem hNne [])
    have hlablen : (argmaxAxis0 segfunN).length = T := by
      rw [argmaxAxis0_length, hcolN]
    have hlabmem : ∀ x ∈ argmaxAxis0 segfunN, x < Z.length := by
      intro x hx
      have := argmaxAxis0_mem_lt hNne x hx
      rwa [hNlen] at this
    obtain ⟨hinvlen, hinvmem⟩ :=
      remove_short_segments_invariant (argmaxAxis0 segfunN) msl
    rw [heqA]
    exact ⟨by rw [hinvlen, hlablen],
      fun x hx => hlabmem x (hinvmem x hx)⟩
  · -- Viterbi variant
    set Zeff := if use_Z then Z else Z.map (fun _ => (1 : ℚ)) with hZeffdef
    set likelihood := viterbiLikelihood reconstruct W Zeff H with hlikdef
    set loglik := likelihood.map (fun row => row.map lg) with hloglikdef
    set logtrans := (viterbiTransmat Zeff.length selfloopprob).map
        (fun row => row.map lg) with hlogtransdef
    have heqB : (nmf_analysis_to_segmentation_using_viterbi_path reconstruct
        lg seq win W Z H selfloopprob use_Z msl).1 =
        remove_short_segments
          (viterbiPath loglik logtrans Zeff.length ((H.headD []).length))
          msl := rfl
    have hT : (H.headD []).length = T := hHT
    have hr : 1 ≤ Zeff.length := by rw [hZeff]; exact hrank
    have hlablen := viterbiPath_length loglik logtrans Zeff.length
      ((H.headD []).length)
    have hlabmem := @viterbiPath_mem_lt loglik logtrans Zeff.length hr
      ((H.headD []).length)
    obtain ⟨hinvlen, hinvmem⟩ := remove_short_segments_invariant
      (viterbiPath loglik logtrans Zeff.length ((H.headD []).length)) msl
    rw [heqB]
    refine ⟨by rw [hinvlen, hlablen, hT], ?_⟩
    intro x hx
    have := hlabmem x (hinvmem x hx)
    rwa [hZeff] at this

/-- C7 counterexample: on a 1-frame input (`T = 1`, engine contract
respected by the stub reconstruction) with `min_segment_length = 2`, the
correlation extractor returns 2 labels, not `T = 1`: the moving-average
smoothing `np.convolve(score, ones(min_segment_length), 'same')` pads
every score curve to length `max(T, min_segment_length)`. -/
theorem claim_C7_short_input_counterexample :
    (nmf_analysis_to_segmentation (fun _ _ _ => [[1]]) [[1]] 1 [[[1]]] [1]
      [[1]] 2 true).1.length = 2 ∧
    colCount [[1]] = 1 := by
  exact ⟨rfl, rfl⟩

/-- Witness for C7 at a concrete decomposition with `T = 2 ≥
min_segment_length = 1`. -/
theorem claim_C7_label_arrays_length_and_range_witness :
    ((nmf_analysis_to_segmentation (fun _ _ _ => [[1, 1]]) [[1, 1]] 1
        [[[1]]] [1] [[1, 1]] 1 true).1.length = 2 ∧
      ∀ x ∈ (nmf_analysis_to_segmentation (fun _ _ _ => [[1, 1]]) [[1, 1]] 1
        [[[1]]] [1] [[1, 1]] 1 true).1, x < ([1] : List ℚ).length) ∧
    ((nmf_analysis_to_segmentation_using_viterbi_path (fun _ _ _ => [[1, 1]])
        id [[1, 1]] 1 [[[1]]] [1] [[1, 1]] (9 / 10) true 1).1.length = 2 ∧
      ∀ x ∈ (nmf_analysis_to_segmentation_using_viterbi_path
        (fun _ _ _ => [[1, 1]]) id [[1, 1]] 1 [[[1]]] [1] [[1, 1]] (9 / 10)
        true 1).1, x < ([1] : List ℚ).length) :=
  claim_C7_label_arrays_length_and_range (fun _ _ _ => [[1, 1]]) id [[1, 1]]
    1 [[[1]]] [1] [[1, 1]] (9 / 10) true 1 2 (by decide) rfl
    (fun _ _ _ => rfl) rfl rfl rfl (by decide) (by decide)

end Segmenter
